import Mathlib

/-!
# Verification of the local-rag-engine chunking core

Shallow embedding of `src/utils/token-counter.ts` and
`src/services/chunking.service.ts` (class `DefaultChunkingService`).

Strings are modelled as `List Char`.  JavaScript's `String.prototype.trim`
and the `/\s+/` character class are modelled by the predicate
`isJsWhitespace` (the ASCII whitespace characters plus NBSP; both JS
operations agree on this class).  JavaScript numbers holding character
offsets are modelled as `Int` (they are only added, except for the single
`Math.max(0, ...)` clamp in overlap injection); counts are `Nat`.
`crypto.randomUUID()` is modelled by an opaque generator `idGen : Nat →
List Char` supplying the fresh `id` of each created chunk; every chunk
creation in one `chunk()` call carries a distinct `position`, which indexes
the generator.
-/

namespace LocalRag

/-- The whitespace class shared by JS `trim` and the regex `\s`
(restricted to the characters that can actually occur here: ASCII
whitespace and NBSP). -/
def isJsWhitespace (c : Char) : Bool :=
  c == ' ' || c == '\t' || c == '\n' || c == '\r' || c == '\x0b' ||
    c == '\x0c' || c == ' '

/-- JS `text.trim()`: drop whitespace from both ends. -/
def jsTrim (l : List Char) : List Char :=
  List.rdropWhile isJsWhitespace (List.dropWhile isJsWhitespace l)

/-- Worker for `jsSplitWs`: `acc` holds the current field (reversed) and
`sep` records whether we are inside a separator run (a maximal nonempty
run of whitespace), in which case the current field has already been
emitted.  Mirrors `String.prototype.split(/\s+/)`: the result always has
at least one field, with an empty leading (resp. trailing) field when the
input starts (resp. ends) with whitespace, and `[""]` for the empty
string. -/
def splitWsGo (sep : Bool) (acc : List Char) : List Char → List (List Char)
  | [] => [acc.reverse]
  | c :: rest =>
    if isJsWhitespace c then
      if sep then splitWsGo true [] rest
      else acc.reverse :: splitWsGo true [] rest
    else
      splitWsGo false (c :: acc) rest

/-- JS `text.split(/\s+/)`. -/
def jsSplitWs (l : List Char) : List (List Char) :=
  splitWsGo false [] l

/-- `estimateTokenCount` from `src/utils/token-counter.ts`:
trim, then `max(ceil(charCount / 4), wordCount)`; `Math.ceil(n / 4)` for a
natural `n` is `(n + 3) / 4`. -/
def estimateTokenCount (text : List Char) : Nat :=
  let normalized := jsTrim text
  let charCount := normalized.length
  let wordCount := (jsSplitWs normalized).length
  let charBasedEstimate := (charCount + 3) / 4
  let wordBasedEstimate := wordCount
  max charBasedEstimate wordBasedEstimate

/-- `exceedsTokenLimit` from `src/utils/token-counter.ts`. -/
def exceedsTokenLimit (text : List Char) (limit : Nat) : Bool :=
  limit < estimateTokenCount text

/-- `ChunkingOptions` (`src/models`): `maxChunkSize` and `overlapSize` are
nonnegative integers by type. -/
structure ChunkingOptions where
  maxChunkSize : Nat
  overlapSize : Nat
  preserveSentences : Bool
deriving Repr, DecidableEq

/-- `Chunk.metadata`. -/
structure ChunkMetadata where
  startChar : Int
  endChar : Int
  tokenCount : Nat
deriving Repr, DecidableEq

/-- A chunk (`src/models`). -/
structure Chunk where
  id : List Char
  documentId : List Char
  content : List Char
  position : Nat
  metadata : ChunkMetadata
deriving Repr, DecidableEq

/-- `createChunk`: `randomUUID()` is modelled by `idGen position` (each
chunk produced by one `chunk()` call has a distinct `position`, so each
creation draws a fresh id). -/
def createChunk (idGen : Nat → List Char) (documentId content : List Char)
    (position : Nat) (startChar endChar : Int) : Chunk :=
  { id := idGen position
    documentId := documentId
    content := content
    position := position
    metadata :=
      { startChar := startChar
        endChar := endChar
        tokenCount := estimateTokenCount content } }

/-- Worker for `splitByParagraphs`: split at each maximal run of two or
more newlines (the regex `/\n\n+/g`, whose greedy matches are exactly
those runs).  `state` is 0 in normal text, 1 after a single newline whose
role is not yet decided (it belongs to the field unless another newline
follows), and 2 inside a separator run. -/
def splitParasGo (state : Nat) (acc : List Char) :
    List Char → List (List Char)
  | [] => if state = 1 then [('\n' :: acc).reverse] else [acc.reverse]
  | c :: rest =>
    if c = '\n' then
      if state = 0 then splitParasGo 1 acc rest
      else if state = 1 then acc.reverse :: splitParasGo 2 [] rest
      else splitParasGo 2 [] rest
    else
      if state = 1 then splitParasGo 0 (c :: '\n' :: acc) rest
      else splitParasGo 0 (c :: acc) rest

/-- `splitByParagraphs`: split on `/\n\n+/`, trim each piece, drop the
empty ones. -/
def splitByParagraphs (content : List Char) : List (List Char) :=
  ((splitParasGo 0 [] content).map jsTrim).filter (fun p => p ≠ [])

/-- Is `c` one of `.`, `!`, `?` (the class in `sentenceEndings =
/[.!?]+[\s\n]/g`)? -/
def isSentenceEnd (c : Char) : Bool :=
  c == '.' || c == '!' || c == '?'

/-- Worker for `splitBySentences`.  A match of `/[.!?]+[\s\n]/` is a
maximal run of `.!?` followed by one whitespace character (backtracking
never helps: every proper suffix of the run still starts with a `.!?`
character, never whitespace).  `acc` holds (reversed) the text
accumulated since the previous match end (`lastIndex`) and `run` holds
(reversed) the current pending run of `.!?` characters: if the run turns
out to be followed by whitespace, the match is complete and the sentence
`text.substring(lastIndex, matchEnd).trim()` is emitted if nonempty;
if it is followed by anything else (or by the end of the text) it is just
ordinary text, exactly as in the scan of `exec`.  At the end the trimmed
remainder is emitted if nonempty. -/
def splitSentsGo (acc run : List Char) : List Char → List (List Char)
  | [] =>
    let remaining := jsTrim (acc.reverse ++ run.reverse)
    if remaining = [] then [] else [remaining]
  | c :: rest =>
    if isSentenceEnd c then
      splitSentsGo acc (c :: run) rest
    else
      if run = [] then splitSentsGo (c :: acc) [] rest
      else
        if isJsWhitespace c then
          let sentence := jsTrim (acc.reverse ++ run.reverse ++ [c])
          if sentence = [] then splitSentsGo [] [] rest
          else sentence :: splitSentsGo [] [] rest
        else
          splitSentsGo (c :: (run ++ acc)) [] rest

/-- `splitBySentences`: the collected sentences, or the whole raw text as
a single "sentence" when none was found. -/
def splitBySentences (text : List Char) : List (List Char) :=
  let sentences := splitSentsGo [] [] text
  if sentences = [] then [text] else sentences

/-- Fuelled worker for `splitByCharacters`, the loop
`for (let i = 0; i < text.length; i += maxChars)` with the remaining text
made explicit (`chunkText = text.substring(i, i + maxChars)` is
`text.take maxChars` on the remainder).  The JS loop is not structurally
recursive (it diverges for `maxChars = 0`, i.e. `maxChunkSize = 0`), so it
is embedded with explicit fuel; `text.length` units of fuel always suffice
when `maxChars ≥ 1` (proved below), which is how `splitByCharacters`
instantiates it. -/
def splitByCharsFuel (idGen : Nat → List Char) (documentId : List Char)
    (maxChars : Nat) :
    Nat → List Char → Nat → Int → List Chunk
  | 0, _, _, _ => []
  | _ + 1, [], _, _ => []
  | fuel + 1, c :: rest, position, currentChar =>
    let chunkText := (c :: rest).take maxChars
    createChunk idGen documentId chunkText position currentChar
        (currentChar + chunkText.length) ::
      splitByCharsFuel idGen documentId maxChars fuel
        ((c :: rest).drop maxChars) (position + 1)
        (currentChar + chunkText.length)

/-- `splitByCharacters`: cut `text` into consecutive slices of
`maxChars = maxTokens * 4` characters. -/
def splitByCharacters (idGen : Nat → List Char) (text documentId : List Char)
    (startPosition : Nat) (startChar : Int) (maxTokens : Nat) : List Chunk :=
  splitByCharsFuel idGen documentId (maxTokens * 4) text.length text
    startPosition startChar

/-- The sentence-packing loop of `splitLargeParagraph` (the
`preserveSentences` branch), with the mutable `currentChunk`,
`currentStartChar` and `position` threaded explicitly. -/
def sentLoop (idGen : Nat → List Char) (documentId : List Char)
    (options : ChunkingOptions) :
    List (List Char) → List Char → Int → Nat → List Chunk
  | [], currentChunk, currentStartChar, position =>
    if jsTrim currentChunk = [] then []
    else
      [createChunk idGen documentId (jsTrim currentChunk) position
        currentStartChar (currentStartChar + currentChunk.length)]
  | sentence :: rest, currentChunk, currentStartChar, position =>
    let testChunk :=
      currentChunk ++ (if currentChunk = [] then [] else [' ']) ++ sentence
    if estimateTokenCount testChunk ≤ options.maxChunkSize then
      sentLoop idGen documentId options rest testChunk currentStartChar position
    else
      if jsTrim currentChunk = [] then
        if options.maxChunkSize < estimateTokenCount sentence then
          let charChunks := splitByCharacters idGen sentence documentId
            position currentStartChar options.maxChunkSize
          charChunks ++ sentLoop idGen documentId options rest []
            (currentStartChar + sentence.length) (position + charChunks.length)
        else
          sentLoop idGen documentId options rest sentence currentStartChar
            position
      else
        let saved := createChunk idGen documentId (jsTrim currentChunk)
          position currentStartChar (currentStartChar + currentChunk.length)
        if options.maxChunkSize < estimateTokenCount sentence then
          let charChunks := splitByCharacters idGen sentence documentId
            (position + 1) (currentStartChar + currentChunk.length)
            options.maxChunkSize
          saved :: charChunks ++ sentLoop idGen documentId options rest []
            (currentStartChar + currentChunk.length + sentence.length)
            (position + 1 + charChunks.length)
        else
          saved :: sentLoop idGen documentId options rest sentence
            (currentStartChar + currentChunk.length) (position + 1)

/-- `splitLargeParagraph`. -/
def splitLargeParagraph (idGen : Nat → List Char)
    (paragraph documentId : List Char) (startPosition : Nat)
    (startChar : Int) (options : ChunkingOptions) : List Chunk :=
  if options.preserveSentences then
    sentLoop idGen documentId options (splitBySentences paragraph) []
      startChar startPosition
  else
    splitByCharacters idGen paragraph documentId startPosition startChar
      options.maxChunkSize

/-- `getOverlapText`: split on whitespace, keep the first (`fromStart`) or
last `overlapSize` fields, re-join with single spaces.  JS
`tokens.slice(-overlapSize)` is the whole array when `overlapSize = 0` and
`tokens.drop (tokens.length - overlapSize)` otherwise. -/
def getOverlapText (text : List Char) (overlapSize : Nat)
    (fromStart : Bool) : List Char :=
  let tokens := jsSplitWs text
  if fromStart then
    List.intercalate [' '] (tokens.take overlapSize)
  else
    if overlapSize = 0 then List.intercalate [' '] tokens
    else List.intercalate [' '] (tokens.drop (tokens.length - overlapSize))

/-- The body of `addOverlap`'s loop for index `i`, reading the neighbours
from the pre-overlap list `chunks`. -/
def overlapChunk (chunks : List Chunk) (overlapSize : Nat) (i : Nat)
    (c : Chunk) : Chunk :=
  let afterPrev : List Char × Int :=
    if 0 < i then
      match chunks[i - 1]? with
      | some prevChunk =>
        let overlapText := getOverlapText prevChunk.content overlapSize false
        (overlapText ++ ' ' :: c.content,
          max 0 (c.metadata.startChar - overlapText.length - 1))
      | none => (c.content, c.metadata.startChar)
    else (c.content, c.metadata.startChar)
  let newContent : List Char :=
    if i < chunks.length - 1 then
      match chunks[i + 1]? with
      | some nextChunk =>
        afterPrev.1 ++ ' ' :: getOverlapText nextChunk.content overlapSize true
      | none => afterPrev.1
    else afterPrev.1
  { c with
    content := jsTrim newContent
    metadata :=
      { startChar := afterPrev.2
        endChar := afterPrev.2 + newContent.length
        tokenCount := estimateTokenCount newContent } }

/-- The `for (let i = 0; ...)` loop of `addOverlap`. -/
def addOverlapGo (chunks : List Chunk) (overlapSize : Nat) :
    Nat → List Chunk → List Chunk
  | _, [] => []
  | i, c :: rest =>
    overlapChunk chunks overlapSize i c ::
      addOverlapGo chunks overlapSize (i + 1) rest

/-- `addOverlap` (its `fullContent` parameter is unused in the source and
kept for fidelity). -/
def addOverlap (chunks : List Chunk) (_fullContent : List Char)
    (overlapSize : Nat) : List Chunk :=
  addOverlapGo chunks overlapSize 0 chunks

/-- The paragraph-packing loop of `chunk` (Step 3), with `currentChunk`,
`currentStartChar` and `position` threaded explicitly.  Note two source
quirks carried over faithfully: in the oversized-paragraph branch the
flush of `currentChunk` does *not* advance `currentStartChar`, while in
the chunk-full branch `currentStartChar += currentChunk.length` happens
whether or not a chunk was flushed. -/
def paraLoop (idGen : Nat → List Char) (documentId : List Char)
    (options : ChunkingOptions) :
    List (List Char) → List Char → Int → Nat → List Chunk
  | [], currentChunk, currentStartChar, position =>
    if jsTrim currentChunk = [] then []
    else
      [createChunk idGen documentId (jsTrim currentChunk) position
        currentStartChar (currentStartChar + currentChunk.length)]
  | paragraph :: rest, currentChunk, currentStartChar, position =>
    if options.maxChunkSize < estimateTokenCount paragraph then
      if jsTrim currentChunk = [] then
        let sentenceChunks := splitLargeParagraph idGen paragraph documentId
          position currentStartChar options
        sentenceChunks ++ paraLoop idGen documentId options rest currentChunk
          (currentStartChar + paragraph.length)
          (position + sentenceChunks.length)
      else
        let saved := createChunk idGen documentId (jsTrim currentChunk)
          position currentStartChar (currentStartChar + currentChunk.length)
        let sentenceChunks := splitLargeParagraph idGen paragraph documentId
          (position + 1) currentStartChar options
        saved :: sentenceChunks ++ paraLoop idGen documentId options rest []
          (currentStartChar + paragraph.length)
          (position + 1 + sentenceChunks.length)
    else
      let testChunk := currentChunk ++
        (if currentChunk = [] then [] else ['\n', '\n']) ++ paragraph
      if estimateTokenCount testChunk ≤ options.maxChunkSize then
        paraLoop idGen documentId options rest testChunk currentStartChar
          position
      else
        if jsTrim currentChunk = [] then
          paraLoop idGen documentId options rest paragraph
            (currentStartChar + currentChunk.length) position
        else
          createChunk idGen documentId (jsTrim currentChunk) position
              currentStartChar (currentStartChar + currentChunk.length) ::
            paraLoop idGen documentId options rest paragraph
              (currentStartChar + currentChunk.length) (position + 1)

/-- The chunk sequence produced by `chunk` *before* overlap injection
(everything up to the `options.overlapSize > 0` test). -/
def chunkCore (content documentId : List Char) (options : ChunkingOptions)
    (idGen : Nat → List Char) : List Chunk :=
  paraLoop idGen documentId options (splitByParagraphs content) [] 0 0

/-- `chunk(content, documentId, options)`. -/
def chunk (content documentId : List Char) (options : ChunkingOptions)
    (idGen : Nat → List Char) : List Chunk :=
  if jsTrim content = [] then []
  else
    let chunks := chunkCore content documentId options idGen
    if 0 < options.overlapSize ∧ 1 < chunks.length then
      addOverlap chunks content options.overlapSize
    else chunks

/-- Modelled from the spec: "`wordEstimate` = count of whitespace-delimited
tokens in the trimmed text (splitting on runs of whitespace ...)" — the
number of maximal non-whitespace runs; `inWord` records whether the
previous character belonged to a word. -/
def countWordsGo (inWord : Bool) : List Char → Nat
  | [] => 0
  | c :: rest =>
    if isJsWhitespace c then countWordsGo false rest
    else if inWord then countWordsGo true rest
    else 1 + countWordsGo true rest

/-- Modelled from the spec: the number of maximal non-whitespace runs. -/
def countWords (l : List Char) : Nat :=
  countWordsGo false l

/-- Modelled from the spec: the word estimate, with "an all-whitespace or
empty string yields a word count of 1 under naive splitting". -/
def specWordCount (text : List Char) : Nat :=
  if jsTrim text = [] then 1 else countWords (jsTrim text)

/-- Number of fields `splitWsGo` closes before the final one. -/
def sepCuts (sep : Bool) : List Char → Nat
  | [] => 0
  | c :: rest =>
    if isJsWhitespace c then
      if sep then sepCuts true rest else 1 + sepCuts true rest
    else sepCuts false rest

/-- The metadata invariant of spec §8.5: nonnegative start offset, strictly
larger end offset, positive token count equal to the estimator's value on
the stored content. -/
def GoodChunk (c : Chunk) : Prop :=
  0 ≤ c.metadata.startChar ∧ c.metadata.startChar < c.metadata.endChar ∧
  0 < c.metadata.tokenCount ∧
  c.metadata.tokenCount = estimateTokenCount c.content

/-- All observable fields of a chunk except the freshly generated opaque
`id`. -/
structure ChunkData where
  documentId : List Char
  content : List Char
  position : Nat
  startChar : Int
  endChar : Int
  tokenCount : Nat
deriving Repr, DecidableEq

/-- Forget the `id` field. -/
def chunkData (c : Chunk) : ChunkData :=
  { documentId := c.documentId
    content := c.content
    position := c.position
    startChar := c.metadata.startChar
    endChar := c.metadata.endChar
    tokenCount := c.metadata.tokenCount }

/-! ## Theorems -/

theorem length_dropWhile_le (p : Char → Bool) (l : List Char) :
    (l.dropWhile p).length ≤ l.length :=
  (List.dropWhile_sublist p).length_le

theorem jsTrim_nil : jsTrim [] = [] := by
  simp [jsTrim, List.rdropWhile]

theorem splitWsGo_length_pos :
    ∀ (l : List Char) (sep : Bool) (acc : List Char),
    1 ≤ (splitWsGo sep acc l).length := by
  intro l
  induction l with
  | nil => intro sep acc; rw [splitWsGo]; simp
  | cons c rest ih =>
    intro sep acc
    rw [splitWsGo]
    cases hw : isJsWhitespace c <;> cases sep <;> simp [ih]

theorem estimateTokenCount_pos (text : List Char) :
    1 ≤ estimateTokenCount text := by
  have h := splitWsGo_length_pos (jsTrim text) false []
  dsimp only [estimateTokenCount, jsSplitWs]
  exact le_trans h (Nat.le_max_right _ _)

theorem rdropWhile_decomp (p : Char → Bool) (x : List Char) :
    ∃ t, x = List.rdropWhile p x ++ t := by
  obtain ⟨t, ht⟩ := List.dropWhile_suffix (l := x.reverse) p
  refine ⟨t.reverse, ?_⟩
  have hx : x = (t ++ x.reverse.dropWhile p).reverse := by rw [ht]; simp
  rw [List.rdropWhile]
  conv_lhs => rw [hx]
  simp

theorem head?_rdropWhile (p : Char → Bool) (x : List Char)
    (h : List.rdropWhile p x ≠ []) :
    (List.rdropWhile p x).head? = x.head? := by
  obtain ⟨t, ht⟩ := rdropWhile_decomp p x
  conv_rhs => rw [ht]
  rw [List.head?_append]
  rcases hh : (List.rdropWhile p x).head? with _ | a
  · exact absurd (List.head?_eq_none_iff.mp hh) h
  · rfl

theorem dropWhile_jsTrim (l : List Char) :
    (jsTrim l).dropWhile isJsWhitespace = jsTrim l := by
  rcases hn : jsTrim l with _ | ⟨c, r⟩
  · rfl
  · have hne : jsTrim l ≠ [] := by rw [hn]; simp
    have h1 : (jsTrim l).head? = (List.dropWhile isJsWhitespace l).head? :=
      head?_rdropWhile isJsWhitespace (List.dropWhile isJsWhitespace l) hne
    have h2 := List.head?_dropWhile_not isJsWhitespace l
    rw [hn] at h1
    have hc : isJsWhitespace c = false := by
      revert h2
      rw [← h1]
      exact fun h2 => h2
    rw [← hn]
    rw [hn]
    exact List.dropWhile_cons_of_neg (by simp [hc])

theorem rdropWhile_jsTrim (l : List Char) :
    List.rdropWhile isJsWhitespace (jsTrim l) = jsTrim l := by
  show List.rdropWhile isJsWhitespace (List.rdropWhile isJsWhitespace
      (List.dropWhile isJsWhitespace l)) = jsTrim l
  exact List.rdropWhile_idempotent _ _

theorem jsTrim_idem (l : List Char) : jsTrim (jsTrim l) = jsTrim l := by
  show List.rdropWhile isJsWhitespace
      (List.dropWhile isJsWhitespace (jsTrim l)) = jsTrim l
  rw [dropWhile_jsTrim, rdropWhile_jsTrim]

theorem estimateTokenCount_jsTrim (l : List Char) :
    estimateTokenCount (jsTrim l) = estimateTokenCount l := by
  dsimp only [estimateTokenCount]
  rw [jsTrim_idem]

theorem splitWsGo_length :
    ∀ (l : List Char) (sep : Bool) (acc : List Char),
    (splitWsGo sep acc l).length = 1 + sepCuts sep l := by
  intro l
  induction l with
  | nil => intro sep acc; rw [splitWsGo, sepCuts]; rfl
  | cons c rest ih =>
    intro sep acc
    cases hw : isJsWhitespace c <;> cases sep <;>
      simp [splitWsGo, sepCuts, hw, ih] <;> omega

theorem sepCuts_true_eq_false_of_head (l : List Char)
    (h : ∀ c, l.head? = some c → isJsWhitespace c = false) :
    sepCuts true l = sepCuts false l := by
  cases l with
  | nil => rfl
  | cons c rest =>
    have hc := h c rfl
    rw [sepCuts, sepCuts]
    simp [hc]

theorem countWords_sepCuts (n : Nat) : ∀ l : List Char, l.length ≤ n →
    (∀ c, l.getLast? = some c → isJsWhitespace c = false) →
    countWordsGo true l = sepCuts false l ∧
    (l ≠ [] → countWordsGo false l = 1 + sepCuts true l) := by
  induction n with
  | zero =>
    intro l hl hlast
    have hnil : l = [] := List.length_eq_zero.mp (by omega)
    subst hnil
    exact ⟨rfl, fun h => absurd rfl h⟩
  | succ n ih =>
    intro l hl hlast
    rcases l with _ | ⟨c, rest⟩
    · exact ⟨rfl, fun h => absurd rfl h⟩
    have hrl : ∀ e, rest.getLast? = some e → isJsWhitespace e = false := by
      intro e he
      rcases rest with _ | ⟨b, l2⟩
      · simp at he
      · exact hlast e (by rw [List.getLast?_cons_cons]; exact he)
    have hlen : rest.length ≤ n := by
      simp only [List.length_cons] at hl; omega
    have hihrest := ih rest hlen hrl
    cases hw : isJsWhitespace c with
    | true =>
      have hrne : rest ≠ [] := by
        intro hrnil
        subst hrnil
        have hlc := hlast c (by simp)
        rw [hw] at hlc
        simp at hlc
      constructor
      · rw [countWordsGo, sepCuts]
        simp only [hw, if_true]
        exact hihrest.2 hrne
      · intro _
        rw [countWordsGo, sepCuts]
        simp only [hw, if_true]
        exact hihrest.2 hrne
    | false =>
      constructor
      · rw [countWordsGo, sepCuts]
        simp only [hw, Bool.false_eq_true, if_false, if_true]
        exact hihrest.1
      · intro _
        rw [countWordsGo, sepCuts]
        simp only [hw, Bool.false_eq_true, if_false]
        rw [hihrest.1]

theorem head?_jsTrim_not_ws (text : List Char) (c : Char)
    (h : (jsTrim text).head? = some c) : isJsWhitespace c = false := by
  have hd := List.head?_dropWhile_not isJsWhitespace (jsTrim text)
  rw [dropWhile_jsTrim, h] at hd
  exact hd

theorem getLast?_jsTrim_not_ws (text : List Char) (c : Char)
    (h : (jsTrim text).getLast? = some c) : isJsWhitespace c = false := by
  have hne : jsTrim text ≠ [] := by
    intro hnil; rw [hnil] at h; simp at h
  have hne2 : List.rdropWhile isJsWhitespace (jsTrim text) ≠ [] := by
    rw [rdropWhile_jsTrim]; exact hne
  have hlast := List.rdropWhile_last_not isJsWhitespace (jsTrim text) hne2
  have hsome := List.getLast?_eq_getLast
    (List.rdropWhile isJsWhitespace (jsTrim text)) hne2
  have h2 : (List.rdropWhile isJsWhitespace (jsTrim text)).getLast?
      = some c := by
    rw [rdropWhile_jsTrim]; exact h
  have hgc := Option.some_inj.mp (hsome.symm.trans h2)
  rw [← hgc]
  simpa using hlast

theorem jsSplitWs_length_eq_specWordCount (text : List Char) :
    (jsSplitWs (jsTrim text)).length = specWordCount text := by
  by_cases hn : jsTrim text = []
  · rw [specWordCount, if_pos hn, hn, jsSplitWs, splitWsGo]
    rfl
  · rw [specWordCount, if_neg hn, jsSplitWs, splitWsGo_length]
    have hhead := head?_jsTrim_not_ws text
    have hlast := getLast?_jsTrim_not_ws text
    have hmain := (countWords_sepCuts (jsTrim text).length (jsTrim text)
      le_rfl hlast).2 hn
    rw [countWords, hmain, sepCuts_true_eq_false_of_head _ hhead]

/-- C7: the Size Estimator contract — `estimate(text)` equals
`max(ceil(length(trim(text)) / 4), w)` where `w` is the number of tokens
from splitting the trimmed text on runs of whitespace under naive JS
splitting (1 for an empty or all-whitespace text), and
`exceeds(text, limit)` holds iff `estimate(text) > limit`. -/
theorem estimator_contract (text : List Char) (limit : Nat) :
    estimateTokenCount text =
      max (((jsTrim text).length + 3) / 4) (specWordCount text) ∧
    (exceedsTokenLimit text limit = true ↔
      limit < estimateTokenCount text) := by
  constructor
  · dsimp only [estimateTokenCount]
    rw [jsSplitWs_length_eq_specWordCount]
  · simp [exceedsTokenLimit]

theorem splitByCharsFuel_positions (idGen : Nat → List Char)
    (documentId : List Char) (maxChars : Nat) (fuel : Nat) :
    ∀ (text : List Char) (position : Nat) (currentChar : Int),
    (splitByCharsFuel idGen documentId maxChars fuel text position
        currentChar).map Chunk.position =
      List.range' position (splitByCharsFuel idGen documentId maxChars fuel
        text position currentChar).length := by
  induction fuel with
  | zero => intro text position currentChar; rw [splitByCharsFuel]; rfl
  | succ fuel ih =>
    intro text position currentChar
    rcases text with _ | ⟨c, rest⟩
    · rw [splitByCharsFuel]; rfl
    · rw [splitByCharsFuel]
      simp only [List.map_cons, List.length_cons, List.range'_succ]
      rw [ih]
      rfl

theorem splitByCharacters_positions (idGen : Nat → List Char)
    (text documentId : List Char) (startPosition : Nat) (startChar : Int)
    (maxTokens : Nat) :
    (splitByCharacters idGen text documentId startPosition startChar
        maxTokens).map Chunk.position =
      List.range' startPosition (splitByCharacters idGen text documentId
        startPosition startChar maxTokens).length :=
  splitByCharsFuel_positions idGen documentId (maxTokens * 4) text.length
    text startPosition startChar

theorem range'_split (s m n : Nat) :
    List.range' s (m + n) = List.range' s m ++ List.range' (s + m) n := by
  rw [Nat.add_comm m n]
  exact (List.range'_append_1 s m n).symm

theorem sentLoop_positions (idGen : Nat → List Char)
    (documentId : List Char) (options : ChunkingOptions) :
    ∀ (ss : List (List Char)) (cc : List Char) (cs : Int) (pos : Nat),
    (sentLoop idGen documentId options ss cc cs pos).map Chunk.position =
      List.range' pos
        (sentLoop idGen documentId options ss cc cs pos).length := by
  intro ss
  induction ss with
  | nil =>
    intro cc cs pos
    rw [sentLoop]
    split
    · rfl
    · simp [createChunk, List.range'_succ]
  | cons s rest ih =>
    intro cc cs pos
    rw [sentLoop]
    dsimp only
    repeat' split
    all_goals first
      | exact ih _ _ _
      | (simp only [List.cons_append, List.map_cons, List.map_append,
          List.length_cons, List.length_append,
          splitByCharacters_positions, ih, createChunk]
         first
          | done
          | (rw [range'_split]; done)
          | (rw [List.range'_succ] <;> try rw [range'_split]
             first
              | done
              | rfl))

theorem splitLargeParagraph_positions (idGen : Nat → List Char)
    (paragraph documentId : List Char) (startPosition : Nat)
    (startChar : Int) (options : ChunkingOptions) :
    (splitLargeParagraph idGen paragraph documentId startPosition startChar
        options).map Chunk.position =
      List.range' startPosition (splitLargeParagraph idGen paragraph
        documentId startPosition startChar options).length := by
  rw [splitLargeParagraph]
  split
  · exact sentLoop_positions idGen documentId options _ [] startChar
      startPosition
  · exact splitByCharacters_positions idGen paragraph documentId
      startPosition startChar options.maxChunkSize

theorem paraLoop_positions (idGen : Nat → List Char)
    (documentId : List Char) (options : ChunkingOptions) :
    ∀ (ps : List (List Char)) (cc : List Char) (cs : Int) (pos : Nat),
    (paraLoop idGen documentId options ps cc cs pos).map Chunk.position =
      List.range' pos
        (paraLoop idGen documentId options ps cc cs pos).length := by
  intro ps
  induction ps with
  | nil =>
    intro cc cs pos
    rw [paraLoop]
    split
    · rfl
    · simp [createChunk, List.range'_succ]
  | cons p rest ih =>
    intro cc cs pos
    rw [paraLoop]
    dsimp only
    repeat' split
    all_goals first
      | exact ih _ _ _
      | (simp only [List.cons_append, List.map_cons, List.map_append,
          List.length_cons, List.length_append,
          splitLargeParagraph_positions, ih, createChunk]
         first
          | done
          | (rw [range'_split]; done)
          | (rw [List.range'_succ] <;> try rw [range'_split]
             first
              | done
              | rfl))

theorem addOverlapGo_length (chunks : List Chunk) (overlapSize : Nat) :
    ∀ (i : Nat) (l : List Chunk),
    (addOverlapGo chunks overlapSize i l).length = l.length := by
  intro i l
  induction l generalizing i with
  | nil => rfl
  | cons c rest ih => rw [addOverlapGo]; simp [ih]

theorem overlapChunk_position (chunks : List Chunk) (overlapSize i : Nat)
    (c : Chunk) : (overlapChunk chunks overlapSize i c).position
      = c.position := rfl

theorem overlapChunk_id (chunks : List Chunk) (overlapSize i : Nat)
    (c : Chunk) : (overlapChunk chunks overlapSize i c).id = c.id := rfl

theorem overlapChunk_documentId (chunks : List Chunk) (overlapSize i : Nat)
    (c : Chunk) : (overlapChunk chunks overlapSize i c).documentId
      = c.documentId := rfl

theorem addOverlapGo_positions (chunks : List Chunk) (overlapSize : Nat) :
    ∀ (i : Nat) (l : List Chunk),
    (addOverlapGo chunks overlapSize i l).map Chunk.position =
      l.map Chunk.position := by
  intro i l
  induction l generalizing i with
  | nil => rfl
  | cons c rest ih =>
    rw [addOverlapGo]
    simp only [List.map_cons, ih, overlapChunk_position]

theorem chunkCore_positions (content documentId : List Char)
    (options : ChunkingOptions) (idGen : Nat → List Char) :
    (chunkCore content documentId options idGen).map Chunk.position =
      List.range' 0 (chunkCore content documentId options idGen).length :=
  paraLoop_positions idGen documentId options (splitByParagraphs content)
    [] 0 0

/-- C3: the `position` fields of the sequence returned by `chunk()` are
exactly `0, 1, …, n-1` in emission order, on every path and also after
overlap injection. -/
theorem chunk_positions_dense (content documentId : List Char)
    (options : ChunkingOptions) (idGen : Nat → List Char)
    (hmax : 1 ≤ options.maxChunkSize) :
    (chunk content documentId options idGen).map Chunk.position =
      List.range (chunk content documentId options idGen).length := by
  rw [List.range_eq_range']
  rw [chunk]
  split
  · rfl
  · dsimp only
    split
    · rw [addOverlap, addOverlapGo_positions, addOverlapGo_length]
      exact chunkCore_positions content documentId options idGen
    · exact chunkCore_positions content documentId options idGen

/-- Witness for C3 at a concrete input. -/
theorem chunk_positions_dense_witness :
    1 ≤ (ChunkingOptions.mk 1 0 true).maxChunkSize ∧
    (chunk (("a a a a a").toList) (("doc").toList)
        (ChunkingOptions.mk 1 0 true) (fun _ => [])).map Chunk.position =
      List.range (chunk (("a a a a a").toList) (("doc").toList)
        (ChunkingOptions.mk 1 0 true) (fun _ => [])).length :=
  ⟨by decide, chunk_positions_dense (("a a a a a").toList) (("doc").toList)
    (ChunkingOptions.mk 1 0 true) (fun _ => []) (by decide)⟩

theorem addOverlapGo_getElem? (chunks : List Chunk) (overlapSize : Nat) :
    ∀ (i : Nat) (l : List Chunk) (j : Nat),
    (addOverlapGo chunks overlapSize i l)[j]? =
      (l[j]?).map (overlapChunk chunks overlapSize (i + j)) := by
  intro i l
  induction l generalizing i with
  | nil => intro j; simp [addOverlapGo]
  | cons c rest ih =>
    intro j
    rw [addOverlapGo]
    cases j with
    | zero => simp
    | succ j =>
      have hidx : i + (j + 1) = i + 1 + j := by omega
      simp only [List.getElem?_cons_succ, ih (i + 1) j, hidx]

/-- C5: overlap injection is frame-preserving — it returns a sequence of
the same length in the same order, and every chunk keeps its `id`,
`documentId` and `position`; each output chunk is computed from the
pre-overlap input list (`overlapChunk chunks …` reads the neighbours from
the original `chunks`), never from already-overlapped output. -/
theorem addOverlap_frame (chunks : List Chunk) (fullContent : List Char)
    (overlapSize : Nat) :
    (addOverlap chunks fullContent overlapSize).length = chunks.length ∧
    ∀ j : Nat,
      (addOverlap chunks fullContent overlapSize)[j]? =
        (chunks[j]?).map (overlapChunk chunks overlapSize j) ∧
      ((addOverlap chunks fullContent overlapSize)[j]?).map Chunk.id =
        (chunks[j]?).map Chunk.id ∧
      ((addOverlap chunks fullContent overlapSize)[j]?).map
          Chunk.documentId = (chunks[j]?).map Chunk.documentId ∧
      ((addOverlap chunks fullContent overlapSize)[j]?).map
          Chunk.position = (chunks[j]?).map Chunk.position := by
  constructor
  · exact addOverlapGo_length chunks overlapSize 0 chunks
  · intro j
    have hget := addOverlapGo_getElem? chunks overlapSize 0 chunks j
    simp only [Nat.zero_add] at hget
    rw [addOverlap]
    refine ⟨hget, ?_, ?_, ?_⟩ <;>
      rw [hget] <;> cases chunks[j]? <;>
      simp [overlapChunk_id, overlapChunk_documentId, overlapChunk_position]

theorem ne_nil_of_jsTrim_ne_nil {l : List Char} (h : jsTrim l ≠ []) :
    l ≠ [] := fun hl => h (hl ▸ jsTrim_nil)

theorem createChunk_good (idGen : Nat → List Char)
    (documentId ct : List Char) (pos : Nat) (cs ce : Int) (h0 : 0 ≤ cs)
    (h1 : cs < ce) : GoodChunk (createChunk idGen documentId ct pos cs ce) :=
  ⟨h0, h1, estimateTokenCount_pos ct, rfl⟩

theorem trimmed_createChunk_good (idGen : Nat → List Char)
    (documentId cc : List Char) (pos : Nat) (cs : Int) (h0 : 0 ≤ cs)
    (hne : jsTrim cc ≠ []) :
    GoodChunk (createChunk idGen documentId (jsTrim cc) pos cs
      (cs + cc.length)) := by
  apply createChunk_good _ _ _ _ _ _ h0
  have hl : 0 < cc.length := List.length_pos.mpr (ne_nil_of_jsTrim_ne_nil hne)
  omega

theorem splitByCharsFuel_good (idGen : Nat → List Char)
    (documentId : List Char) (maxChars : Nat) (hmc : 1 ≤ maxChars) :
    ∀ (fuel : Nat) (text : List Char) (pos : Nat) (cs : Int), 0 ≤ cs →
    ∀ c ∈ splitByCharsFuel idGen documentId maxChars fuel text pos cs,
      GoodChunk c := by
  intro fuel
  induction fuel with
  | zero =>
    intro text pos cs h0 c hc
    rw [splitByCharsFuel] at hc
    simp at hc
  | succ fuel ih =>
    intro text pos cs h0 c hc
    rcases text with _ | ⟨a, rest⟩
    · rw [splitByCharsFuel] at hc; simp at hc
    · rw [splitByCharsFuel] at hc
      rcases List.mem_cons.mp hc with rfl | hc
      · apply createChunk_good _ _ _ _ _ _ h0
        have hne : ((a :: rest).take maxChars) ≠ [] := by
          intro hnil
          rcases List.take_eq_nil_iff.mp hnil with h | h
          · omega
          · simp at h
        have hl : 0 < ((a :: rest).take maxChars).length :=
          List.length_pos.mpr hne
        omega
      · exact ih ((a :: rest).drop maxChars) (pos + 1)
          (cs + ((a :: rest).take maxChars).length) (by
            have := ((a :: rest).take maxChars).length
            omega) c hc

theorem splitByCharacters_good (idGen : Nat → List Char)
    (text documentId : List Char) (startPosition : Nat) (startChar : Int)
    (maxTokens : Nat) (hmt : 1 ≤ maxTokens) (h0 : 0 ≤ startChar) :
    ∀ c ∈ splitByCharacters idGen text documentId startPosition startChar
      maxTokens, GoodChunk c :=
  splitByCharsFuel_good idGen documentId (maxTokens * 4) (by omega)
    text.length text startPosition startChar h0

theorem sentLoop_good (idGen : Nat → List Char) (documentId : List Char)
    (options : ChunkingOptions) (hmax : 1 ≤ options.maxChunkSize) :
    ∀ (ss : List (List Char)) (cc : List Char) (cs : Int) (pos : Nat),
    0 ≤ cs →
    ∀ c ∈ sentLoop idGen documentId options ss cc cs pos, GoodChunk c := by
  intro ss
  induction ss with
  | nil =>
    intro cc cs pos h0 c hc
    rw [sentLoop] at hc
    split at hc
    · simp at hc
    · rw [List.mem_singleton] at hc
      subst hc
      exact trimmed_createChunk_good idGen documentId cc pos cs h0
        (by assumption)
  | cons s rest ih =>
    intro cc cs pos h0 c hc
    rw [sentLoop] at hc
    dsimp only at hc
    set sep : List Char := if cc = [] then [] else [' '] with hsep
    split at hc
    · exact ih _ cs pos h0 c hc
    · split at hc
      · split at hc
        · rcases List.mem_append.mp hc with hc | hc
          · exact splitByCharacters_good idGen s documentId pos cs
              options.maxChunkSize hmax h0 c hc
          · exact ih [] _ _ (by omega) c hc
        · exact ih s cs pos h0 c hc
      · split at hc
        · rcases List.mem_cons.mp hc with rfl | hc
          · exact trimmed_createChunk_good idGen documentId cc pos cs h0
              (by assumption)
          · rcases List.mem_append.mp hc with hc | hc
            · exact splitByCharacters_good idGen s documentId (pos + 1)
                (cs + cc.length) options.maxChunkSize hmax (by omega) c hc
            · exact ih [] _ _ (by omega) c hc
        · rcases List.mem_cons.mp hc with rfl | hc
          · exact trimmed_createChunk_good idGen documentId cc pos cs h0
              (by assumption)
          · exact ih s _ _ (by omega) c hc

theorem splitLargeParagraph_good (idGen : Nat → List Char)
    (paragraph documentId : List Char) (startPosition : Nat)
    (startChar : Int) (options : ChunkingOptions)
    (hmax : 1 ≤ options.maxChunkSize) (h0 : 0 ≤ startChar) :
    ∀ c ∈ splitLargeParagraph idGen paragraph documentId startPosition
      startChar options, GoodChunk c := by
  intro c hc
  rw [splitLargeParagraph] at hc
  split at hc
  · exact sentLoop_good idGen documentId options hmax _ [] startChar
      startPosition h0 c hc
  · exact splitByCharacters_good idGen paragraph documentId startPosition
      startChar options.maxChunkSize hmax h0 c hc

theorem paraLoop_good (idGen : Nat → List Char) (documentId : List Char)
    (options : ChunkingOptions) (hmax : 1 ≤ options.maxChunkSize) :
    ∀ (ps : List (List Char)) (cc : List Char) (cs : Int) (pos : Nat),
    0 ≤ cs →
    ∀ c ∈ paraLoop idGen documentId options ps cc cs pos, GoodChunk c := by
  intro ps
  induction ps with
  | nil =>
    intro cc cs pos h0 c hc
    rw [paraLoop] at hc
    split at hc
    · simp at hc
    · rw [List.mem_singleton] at hc
      subst hc
      exact trimmed_createChunk_good idGen documentId cc pos cs h0
        (by assumption)
  | cons p rest ih =>
    intro cc cs pos h0 c hc
    rw [paraLoop] at hc
    dsimp only at hc
    set sep : List Char := if cc = [] then [] else ['\n', '\n'] with hsep
    split at hc
    · split at hc
      · rcases List.mem_append.mp hc with hc | hc
        · exact splitLargeParagraph_good idGen p documentId pos cs options
            hmax h0 c hc
        · exact ih cc _ _ (by omega) c hc
      · rcases List.mem_cons.mp hc with rfl | hc
        · exact trimmed_createChunk_good idGen documentId cc pos cs h0
            (by assumption)
        · rcases List.mem_append.mp hc with hc | hc
          · exact splitLargeParagraph_good idGen p documentId (pos + 1) cs
              options hmax h0 c hc
          · exact ih [] _ _ (by omega) c hc
    · split at hc
      · exact ih _ cs pos h0 c hc
      · split at hc
        · exact ih p _ _ (by omega) c hc
        · rcases List.mem_cons.mp hc with rfl | hc
          · exact trimmed_createChunk_good idGen documentId cc pos cs h0
              (by assumption)
          · exact ih p _ _ (by omega) c hc

theorem chunkCore_good (content documentId : List Char)
    (options : ChunkingOptions) (idGen : Nat → List Char)
    (hmax : 1 ≤ options.maxChunkSize) :
    ∀ c ∈ chunkCore content documentId options idGen, GoodChunk c :=
  paraLoop_good idGen documentId options hmax (splitByParagraphs content)
    [] 0 0 le_rfl

theorem overlapChunk_good (chunks : List Chunk) (overlapSize i : Nat)
    (c : Chunk) (hlen : 1 < chunks.length) (hi : i < chunks.length)
    (h0 : 0 ≤ c.metadata.startChar) :
    GoodChunk (overlapChunk chunks overlapSize i c) := by
  by_cases hi0 : 0 < i
  · have hprev : i - 1 < chunks.length := by omega
    have hp := List.getElem?_eq_getElem hprev
    by_cases hlt : i < chunks.length - 1
    · have hnext : i + 1 < chunks.length := by omega
      have hn := List.getElem?_eq_getElem hnext
      refine ⟨?_, ?_, ?_, ?_⟩ <;>
        (try simp only [overlapChunk, hi0, hp, hn, hlt, if_true, if_false,
          estimateTokenCount_jsTrim]) <;>
        first
          | exact le_max_left 0 _
          | exact estimateTokenCount_pos _
          | (simp only [List.length_append, List.length_cons]; omega)
          | rfl
    · refine ⟨?_, ?_, ?_, ?_⟩ <;>
        (try simp only [overlapChunk, hi0, hp, hlt, if_true, if_false,
          estimateTokenCount_jsTrim]) <;>
        first
          | exact le_max_left 0 _
          | exact estimateTokenCount_pos _
          | (simp only [List.length_append, List.length_cons]; omega)
          | rfl
  · have hieq : i = 0 := by omega
    have hlt : i < chunks.length - 1 := by omega
    have hnext : i + 1 < chunks.length := by omega
    have hn := List.getElem?_eq_getElem hnext
    refine ⟨?_, ?_, ?_, ?_⟩ <;>
      (try simp only [overlapChunk, hi0, hn, hlt, if_true, if_false,
        estimateTokenCount_jsTrim]) <;>
      first
        | exact h0
        | exact estimateTokenCount_pos _
        | (simp only [List.length_append, List.length_cons]; omega)
        | rfl

/-- C4: metadata consistency — every chunk returned by `chunk()` has
`startChar ≥ 0`, `endChar > startChar`, `tokenCount > 0` and
`tokenCount = estimate(content)` computed from the chunk's final stored
(post-overlap) content (`overlapSize ≥ 0` holds by type). -/
theorem chunk_metadata_consistent (content documentId : List Char)
    (options : ChunkingOptions) (idGen : Nat → List Char)
    (hmax : 1 ≤ options.maxChunkSize) :
    ∀ c ∈ chunk content documentId options idGen,
      0 ≤ c.metadata.startChar ∧
      c.metadata.startChar < c.metadata.endChar ∧
      0 < c.metadata.tokenCount ∧
      c.metadata.tokenCount = estimateTokenCount c.content := by
  intro c hc
  rw [chunk] at hc
  split at hc
  · simp at hc
  · dsimp only at hc
    split at hc
    · rename_i hover
      rw [addOverlap] at hc
      rw [List.mem_iff_getElem?] at hc
      obtain ⟨j, hj⟩ := hc
      rw [addOverlapGo_getElem?] at hj
      simp only [Nat.zero_add] at hj
      rcases hcj : (chunkCore content documentId options idGen)[j]?
        with _ | d
      · rw [hcj] at hj; simp at hj
      · rw [hcj] at hj
        simp only [Option.map_some'] at hj
        obtain ⟨hjlen, -⟩ := List.getElem?_eq_some_iff.mp hcj
        have hdmem : d ∈ chunkCore content documentId options idGen := by
          rw [List.mem_iff_getElem?]; exact ⟨j, hcj⟩
        have hd := chunkCore_good content documentId options idGen hmax
          d hdmem
        have hgood := overlapChunk_good
          (chunkCore content documentId options idGen) options.overlapSize
          j d hover.2 hjlen hd.1
        have hceq := Option.some_inj.mp hj
        rw [← hceq]
        exact hgood
    · exact chunkCore_good content documentId options idGen hmax c hc

/-- Witness for C4 at a concrete input. -/
theorem chunk_metadata_consistent_witness :
    1 ≤ (ChunkingOptions.mk 10 2 true).maxChunkSize ∧
    (∀ c ∈ chunk (("Hello world. This is a test.").toList) (("doc").toList)
        (ChunkingOptions.mk 10 2 true) (fun _ => []),
      0 ≤ c.metadata.startChar ∧
      c.metadata.startChar < c.metadata.endChar ∧
      0 < c.metadata.tokenCount ∧
      c.metadata.tokenCount = estimateTokenCount c.content) :=
  ⟨by decide, chunk_metadata_consistent (("Hello world. This is a test.").toList)
    (("doc").toList) (ChunkingOptions.mk 10 2 true) (fun _ => []) (by decide)⟩

/-- C6: empty or whitespace-only input yields the empty chunk sequence,
for every `documentId` and every options, with no error. -/
theorem chunk_empty_input (content documentId : List Char)
    (options : ChunkingOptions) (idGen : Nat → List Char)
    (h : jsTrim content = []) :
    chunk content documentId options idGen = [] := by
  rw [chunk, if_pos h]

/-- Witness for C6 on the whitespace-only input from the spec. -/
theorem chunk_empty_input_witness :
    jsTrim (("   \n\t ").toList) = [] ∧
    chunk (("   \n\t ").toList) (("id").toList)
      (ChunkingOptions.mk 512 50 true) (fun _ => []) = [] :=
  ⟨by decide, chunk_empty_input (("   \n\t ").toList) (("id").toList)
    (ChunkingOptions.mk 512 50 true) (fun _ => []) (by decide)⟩

theorem splitByCharsFuel_nil (idGen : Nat → List Char)
    (documentId : List Char) (maxChars fuel : Nat) (pos : Nat) (cs : Int) :
    splitByCharsFuel idGen documentId maxChars fuel [] pos cs = [] := by
  cases fuel <;> rw [splitByCharsFuel]

theorem splitByCharsFuel_stable (idGen : Nat → List Char)
    (documentId : List Char) (maxChars : Nat) (hmc : 1 ≤ maxChars) :
    ∀ (n : Nat) (text : List Char) (f1 f2 pos : Nat) (cs : Int),
    text.length ≤ n → text.length ≤ f1 → text.length ≤ f2 →
    splitByCharsFuel idGen documentId maxChars f1 text pos cs =
      splitByCharsFuel idGen documentId maxChars f2 text pos cs := by
  intro n
  induction n with
  | zero =>
    intro text f1 f2 pos cs h0 h1 h2
    have : text = [] := List.length_eq_zero.mp (by omega)
    subst this
    rw [splitByCharsFuel_nil, splitByCharsFuel_nil]
  | succ n ih =>
    intro text f1 f2 pos cs hn h1 h2
    rcases text with _ | ⟨a, rest⟩
    · rw [splitByCharsFuel_nil, splitByCharsFuel_nil]
    · have hlen : (a :: rest).length = rest.length + 1 := rfl
      rcases f1 with _ | f1
      · exact absurd h1 (by simp)
      rcases f2 with _ | f2
      · exact absurd h2 (by simp)
      rw [splitByCharsFuel, splitByCharsFuel]
      congr 1
      apply ih
      · have := List.length_drop maxChars (a :: rest)
        simp only [List.length_cons] at hn ⊢
        omega
      · have := List.length_drop maxChars (a :: rest)
        simp only [List.length_cons] at h1 ⊢
        omega
      · have := List.length_drop maxChars (a :: rest)
        simp only [List.length_cons] at h2 ⊢
        omega

theorem splitByCharsFuel_length_le (idGen : Nat → List Char)
    (documentId : List Char) (maxChars : Nat) (hmc : 1 ≤ maxChars) :
    ∀ (fuel : Nat) (text : List Char) (pos : Nat) (cs : Int),
    (splitByCharsFuel idGen documentId maxChars fuel text pos
      cs).length ≤ text.length := by
  intro fuel
  induction fuel with
  | zero => intro text pos cs; rw [splitByCharsFuel]; simp
  | succ fuel ih =>
    intro text pos cs
    rcases text with _ | ⟨a, rest⟩
    · rw [splitByCharsFuel]; simp
    · rw [splitByCharsFuel]
      simp only [List.length_cons]
      have hrec := ih ((a :: rest).drop maxChars) (pos + 1)
        (cs + ((a :: rest).take maxChars).length)
      have hdrop := List.length_drop maxChars (a :: rest)
      simp only [List.length_cons] at hdrop
      omega

/-- C9: under a valid configuration (`maxChunkSize ≥ 1`; `overlapSize ≥ 0`
by type) the character-split loop — the only non-structural recursion in
`chunk()` — terminates: it advances by `maxChunkSize * 4 ≥ 4` characters
per step, so `text.length` steps of fuel always suffice, the result is
independent of any additional fuel, and the output is a finite sequence of
at most `text.length` chunks.  Every other stage of `chunk()` is a total
structural recursion, so the whole call raises no error. -/
theorem splitByCharacters_terminates (idGen : Nat → List Char)
    (text documentId : List Char) (startPosition : Nat) (startChar : Int)
    (maxTokens fuel : Nat) (hmt : 1 ≤ maxTokens)
    (hfuel : text.length ≤ fuel) :
    splitByCharsFuel idGen documentId (maxTokens * 4) fuel text
        startPosition startChar =
      splitByCharacters idGen text documentId startPosition startChar
        maxTokens ∧
    (splitByCharacters idGen text documentId startPosition startChar
        maxTokens).length ≤ text.length := by
  constructor
  · exact splitByCharsFuel_stable idGen documentId (maxTokens * 4)
      (by omega) text.length text fuel text.length startPosition startChar
      le_rfl hfuel le_rfl
  · exact splitByCharsFuel_length_le idGen documentId (maxTokens * 4)
      (by omega) text.length text startPosition startChar

/-- Witness for C9 at a concrete input. -/
theorem splitByCharacters_terminates_witness :
    1 ≤ 1 ∧ (("abcdefghij").toList).length ≤ 100 ∧
    (splitByCharsFuel (fun _ => []) (("d").toList) (1 * 4) 100
        (("abcdefghij").toList) 0 0 =
      splitByCharacters (fun _ => []) (("abcdefghij").toList)
        (("d").toList) 0 0 1 ∧
    (splitByCharacters (fun _ => []) (("abcdefghij").toList) (("d").toList)
        0 0 1).length ≤ (("abcdefghij").toList).length) :=
  ⟨by decide, by decide, splitByCharacters_terminates (fun _ => [])
    (("abcdefghij").toList) (("d").toList) 0 0 1 100 (by decide)
    (by decide)⟩

/-- C1 fails on the code: with `maxChunkSize = 1` and `overlapSize = 0`
(so the returned sequence *is* the pre-overlap sequence), the input
`"a a a a a"` reaches the character-level split, whose slice `"a a "` has
`estimate = max(ceil(3/4), 2) = 2 > 1`: the estimates of the produced
chunks are `[2, 2, 1]`.  The repository's own property test
(`chunking.property.test.ts`, Property 13) asserts the bound the spec
states, so the missing size check in `splitByCharacters` is a code bug. -/
theorem chunk_size_bound_violation :
    (ChunkingOptions.mk 1 0 true).maxChunkSize = 1 ∧
    (ChunkingOptions.mk 1 0 true).overlapSize = 0 ∧
    (chunk (("a a a a a").toList) (("doc").toList)
        (ChunkingOptions.mk 1 0 true) (fun _ => [])).map
      (fun c => estimateTokenCount c.content) = [2, 2, 1] ∧
    ¬ (∀ c ∈ chunk (("a a a a a").toList) (("doc").toList)
          (ChunkingOptions.mk 1 0 true) (fun _ => []),
        estimateTokenCount c.content ≤
          (ChunkingOptions.mk 1 0 true).maxChunkSize) :=
  ⟨rfl, rfl, by decide, by decide⟩

/-- C2 fails on the code: the non-blank input `"a        b"` (one letter,
eight spaces, one letter) with `maxChunkSize = 1`, `overlapSize = 0`
reaches the character-level split, whose middle slice `"    "` is
whitespace-only, so the returned sequence contains a chunk whose trimmed
content is empty — contradicting the spec's "No chunk ever has empty
trimmed content in the output" (§7), while every other emission site in
the code does guard with `trim().length > 0`. -/
theorem chunk_nonempty_trim_violation :
    jsTrim (("a        b").toList) ≠ [] ∧
    (chunk (("a        b").toList) (("doc").toList)
        (ChunkingOptions.mk 1 0 true) (fun _ => [])).map
      (fun c => jsTrim c.content) = [("a").toList, [], ("b").toList] ∧
    ¬ (∀ c ∈ chunk (("a        b").toList) (("doc").toList)
          (ChunkingOptions.mk 1 0 true) (fun _ => []),
        jsTrim c.content ≠ []) :=
  ⟨by decide, by decide, by decide⟩

/-- C8: when the input trims to a single paragraph (no paragraph
separator splits it into several non-blank segments) whose estimate fits
in `maxChunkSize`, `chunk()` returns exactly one chunk, at position 0,
whose content is the trimmed input, with offsets `[0, length)`. -/
theorem chunk_single_small_paragraph (content documentId : List Char)
    (options : ChunkingOptions) (idGen : Nat → List Char)
    (hne : jsTrim content ≠ [])
    (hpara : splitByParagraphs content = [jsTrim content])
    (hsize : estimateTokenCount content ≤ options.maxChunkSize) :
    chunk content documentId options idGen =
      [createChunk idGen documentId (jsTrim content) 0 0
        ((jsTrim content).length : Int)] := by
  have hsize2 : estimateTokenCount (jsTrim content) ≤ options.maxChunkSize := by
    rw [estimateTokenCount_jsTrim]; exact hsize
  have hcore : chunkCore content documentId options idGen =
      [createChunk idGen documentId (jsTrim content) 0 0
        ((jsTrim content).length : Int)] := by
    rw [chunkCore, hpara, paraLoop]
    dsimp only
    rw [if_neg (not_lt.mpr hsize2)]
    have htest : ([] : List Char) ++
        (if ([] : List Char) = [] then ([] : List Char) else ['\n', '\n']) ++
        jsTrim content = jsTrim content := by simp
    rw [htest, if_pos hsize2, paraLoop]
    rw [jsTrim_idem, if_neg hne]
    rw [zero_add]
  rw [chunk, if_neg hne]
  dsimp only
  rw [hcore]
  rw [if_neg (by simp)]

/-- Witness for C8: the spec's concrete scenario
`"Sentence one. Sentence two. Sentence three."` with
`maxChunkSize = 1000`, `overlapSize = 0`, `preserveSentences = true`
yields exactly one chunk at position 0 whose content is the input. -/
theorem chunk_single_small_paragraph_witness :
    jsTrim (("Sentence one. Sentence two. Sentence three.").toList) =
      ("Sentence one. Sentence two. Sentence three.").toList ∧
    splitByParagraphs
        (("Sentence one. Sentence two. Sentence three.").toList) =
      [jsTrim (("Sentence one. Sentence two. Sentence three.").toList)] ∧
    estimateTokenCount
        (("Sentence one. Sentence two. Sentence three.").toList) ≤ 1000 ∧
    chunk (("Sentence one. Sentence two. Sentence three.").toList)
        (("doc").toList) (ChunkingOptions.mk 1000 0 true) (fun _ => []) =
      [createChunk (fun _ => []) (("doc").toList)
        (jsTrim (("Sentence one. Sentence two. Sentence three.").toList))
        0 0 ((jsTrim (("Sentence one. Sentence two. Sentence three."
          ).toList)).length : Int)] :=
  ⟨by decide, by decide, by decide,
    chunk_single_small_paragraph
      (("Sentence one. Sentence two. Sentence three.").toList)
      (("doc").toList) (ChunkingOptions.mk 1000 0 true) (fun _ => [])
      (by decide) (by decide) (by decide)⟩

theorem splitByCharsFuel_data (g1 g2 : Nat → List Char)
    (documentId : List Char) (maxChars : Nat) :
    ∀ (fuel : Nat) (text : List Char) (pos : Nat) (cs : Int),
    (splitByCharsFuel g1 documentId maxChars fuel text pos cs).map
        chunkData =
      (splitByCharsFuel g2 documentId maxChars fuel text pos cs).map
        chunkData := by
  intro fuel
  induction fuel with
  | zero => intro text pos cs; rw [splitByCharsFuel, splitByCharsFuel]
  | succ fuel ih =>
    intro text pos cs
    rcases text with _ | ⟨a, rest⟩
    · rw [splitByCharsFuel, splitByCharsFuel]
    · rw [splitByCharsFuel, splitByCharsFuel]
      simp only [List.map_cons]
      congr 1
      exact ih _ _ _

theorem splitByCharacters_data (g1 g2 : Nat → List Char)
    (text documentId : List Char) (pos : Nat) (cs : Int)
    (maxTokens : Nat) :
    (splitByCharacters g1 text documentId pos cs maxTokens).map chunkData =
      (splitByCharacters g2 text documentId pos cs maxTokens).map
        chunkData :=
  splitByCharsFuel_data g1 g2 documentId (maxTokens * 4) text.length text
    pos cs

theorem splitByCharacters_length_data (g1 g2 : Nat → List Char)
    (text documentId : List Char) (pos : Nat) (cs : Int)
    (maxTokens : Nat) :
    (splitByCharacters g1 text documentId pos cs maxTokens).length =
      (splitByCharacters g2 text documentId pos cs maxTokens).length := by
  have h := splitByCharacters_data g1 g2 text documentId pos cs maxTokens
  have h1 := List.length_map
    (splitByCharacters g1 text documentId pos cs maxTokens) chunkData
  have h2 := List.length_map
    (splitByCharacters g2 text documentId pos cs maxTokens) chunkData
  rw [← h1, ← h2, h]

theorem sentLoop_data (g1 g2 : Nat → List Char) (documentId : List Char)
    (options : ChunkingOptions) :
    ∀ (ss : List (List Char)) (cc : List Char) (cs : Int) (pos : Nat),
    (sentLoop g1 documentId options ss cc cs pos).map chunkData =
      (sentLoop g2 documentId options ss cc cs pos).map chunkData := by
  intro ss
  induction ss with
  | nil =>
    intro cc cs pos
    rw [sentLoop, sentLoop]
    by_cases h : jsTrim cc = []
    · rw [if_pos h, if_pos h]
    · rw [if_neg h, if_neg h]
      rfl
  | cons s rest ih =>
    intro cc cs pos
    rw [sentLoop, sentLoop]
    dsimp only
    by_cases h1 : estimateTokenCount
        (cc ++ (if cc = [] then [] else [' ']) ++ s) ≤ options.maxChunkSize
    · rw [if_pos h1, if_pos h1]
      exact ih _ _ _
    · rw [if_neg h1, if_neg h1]
      by_cases h2 : jsTrim cc = []
      · rw [if_pos h2, if_pos h2]
        by_cases h3 : options.maxChunkSize < estimateTokenCount s
        · rw [if_pos h3, if_pos h3]
          have hlen := splitByCharacters_length_data g1 g2 s documentId pos
            cs options.maxChunkSize
          simp only [List.map_append]
          rw [hlen]
          congr 1
          · exact splitByCharacters_data g1 g2 s documentId pos cs
              options.maxChunkSize
          · exact ih _ _ _
        · rw [if_neg h3, if_neg h3]
          exact ih _ _ _
      · rw [if_neg h2, if_neg h2]
        by_cases h3 : options.maxChunkSize < estimateTokenCount s
        · rw [if_pos h3, if_pos h3]
          have hlen := splitByCharacters_length_data g1 g2 s documentId
            (pos + 1) (cs + cc.length) options.maxChunkSize
          simp only [List.map_cons, List.map_append]
          rw [hlen]
          congr 1
          congr 1
          · exact splitByCharacters_data g1 g2 s documentId (pos + 1)
              (cs + cc.length) options.maxChunkSize
          · exact ih _ _ _
        · rw [if_neg h3, if_neg h3]
          simp only [List.map_cons]
          congr 1
          exact ih _ _ _

theorem splitLargeParagraph_data (g1 g2 : Nat → List Char)
    (paragraph documentId : List Char) (startPosition : Nat)
    (startChar : Int) (options : ChunkingOptions) :
    (splitLargeParagraph g1 paragraph documentId startPosition startChar
        options).map chunkData =
      (splitLargeParagraph g2 paragraph documentId startPosition startChar
        options).map chunkData := by
  rw [splitLargeParagraph, splitLargeParagraph]
  by_cases h : options.preserveSentences = true
  · rw [if_pos h, if_pos h]
    exact sentLoop_data g1 g2 documentId options _ [] startChar
      startPosition
  · rw [if_neg h, if_neg h]
    exact splitByCharacters_data g1 g2 paragraph documentId startPosition
      startChar options.maxChunkSize

theorem splitLargeParagraph_length_data (g1 g2 : Nat → List Char)
    (paragraph documentId : List Char) (startPosition : Nat)
    (startChar : Int) (options : ChunkingOptions) :
    (splitLargeParagraph g1 paragraph documentId startPosition startChar
        options).length =
      (splitLargeParagraph g2 paragraph documentId startPosition startChar
        options).length := by
  have h := splitLargeParagraph_data g1 g2 paragraph documentId
    startPosition startChar options
  have h1 := List.length_map (splitLargeParagraph g1 paragraph documentId
    startPosition startChar options) chunkData
  have h2 := List.length_map (splitLargeParagraph g2 paragraph documentId
    startPosition startChar options) chunkData
  rw [← h1, ← h2, h]

theorem paraLoop_data (g1 g2 : Nat → List Char) (documentId : List Char)
    (options : ChunkingOptions) :
    ∀ (ps : List (List Char)) (cc : List Char) (cs : Int) (pos : Nat),
    (paraLoop g1 documentId options ps cc cs pos).map chunkData =
      (paraLoop g2 documentId options ps cc cs pos).map chunkData := by
  intro ps
  induction ps with
  | nil =>
    intro cc cs pos
    rw [paraLoop, paraLoop]
    by_cases h : jsTrim cc = []
    · rw [if_pos h, if_pos h]
    · rw [if_neg h, if_neg h]
      rfl
  | cons p rest ih =>
    intro cc cs pos
    rw [paraLoop, paraLoop]
    dsimp only
    by_cases h1 : options.maxChunkSize < estimateTokenCount p
    · rw [if_pos h1, if_pos h1]
      by_cases h2 : jsTrim cc = []
      · rw [if_pos h2, if_pos h2]
        have hlen := splitLargeParagraph_length_data g1 g2 p documentId pos
          cs options
        simp only [List.map_append]
        rw [hlen]
        congr 1
        · exact splitLargeParagraph_data g1 g2 p documentId pos cs options
        · exact ih _ _ _
      · rw [if_neg h2, if_neg h2]
        have hlen := splitLargeParagraph_length_data g1 g2 p documentId
          (pos + 1) cs options
        simp only [List.map_cons, List.map_append]
        rw [hlen]
        congr 1
        congr 1
        · exact splitLargeParagraph_data g1 g2 p documentId (pos + 1) cs
            options
        · exact ih _ _ _
    · rw [if_neg h1, if_neg h1]
      by_cases h2 : estimateTokenCount
          (cc ++ (if cc = [] then [] else ['\n', '\n']) ++ p) ≤
          options.maxChunkSize
      · rw [if_pos h2, if_pos h2]
        exact ih _ _ _
      · rw [if_neg h2, if_neg h2]
        by_cases h3 : jsTrim cc = []
        · rw [if_pos h3, if_pos h3]
          exact ih _ _ _
        · rw [if_neg h3, if_neg h3]
          simp only [List.map_cons]
          congr 1
          exact ih _ _ _

theorem chunkCore_data (content documentId : List Char)
    (options : ChunkingOptions) (g1 g2 : Nat → List Char) :
    (chunkCore content documentId options g1).map chunkData =
      (chunkCore content documentId options g2).map chunkData :=
  paraLoop_data g1 g2 documentId options (splitByParagraphs content) [] 0 0

theorem chunkCore_length_data (content documentId : List Char)
    (options : ChunkingOptions) (g1 g2 : Nat → List Char) :
    (chunkCore content documentId options g1).length =
      (chunkCore content documentId options g2).length := by
  have h := chunkCore_data content documentId options g1 g2
  have h1 := List.length_map (chunkCore content documentId options g1)
    chunkData
  have h2 := List.length_map (chunkCore content documentId options g2)
    chunkData
  rw [← h1, ← h2, h]

theorem overlapChunk_data (A B : List Chunk) (overlapSize i : Nat)
    (c d : Chunk) (hAB : A.map chunkData = B.map chunkData)
    (hcd : chunkData c = chunkData d) :
    chunkData (overlapChunk A overlapSize i c) =
      chunkData (overlapChunk B overlapSize i d) := by
  have hlen : A.length = B.length := by
    have h1 := List.length_map A chunkData
    have h2 := List.length_map B chunkData
    rw [← h1, ← h2, hAB]
  have hget : ∀ j : Nat, (A[j]?).map chunkData = (B[j]?).map chunkData := by
    intro j
    rw [← List.getElem?_map, ← List.getElem?_map, hAB]
  have hcont : c.content = d.content := congrArg ChunkData.content hcd
  have hstart : c.metadata.startChar = d.metadata.startChar :=
    congrArg ChunkData.startChar hcd
  have hdoc : c.documentId = d.documentId :=
    congrArg ChunkData.documentId hcd
  have hpos : c.position = d.position := congrArg ChunkData.position hcd
  rw [overlapChunk, overlapChunk]
  dsimp only
  rw [← hlen]
  by_cases hi0 : 0 < i
  · rw [if_pos hi0, if_pos hi0]
    have hg := hget (i - 1)
    rcases hA1 : A[i - 1]? with _ | p1 <;> rcases hB1 : B[i - 1]? with _ | p2
    all_goals rw [hA1, hB1] at hg
    · -- both none
      by_cases hlt : i < A.length - 1
      · rw [if_pos hlt, if_pos hlt]
        have hg2 := hget (i + 1)
        rcases hA2 : A[i + 1]? with _ | q1 <;>
          rcases hB2 : B[i + 1]? with _ | q2
        all_goals rw [hA2, hB2] at hg2
        · simp [chunkData, hcont, hstart, hdoc, hpos]
        · simp at hg2
        · simp at hg2
        · have hq : q1.content = q2.content := by
            simp only [Option.map_some'] at hg2
            exact congrArg ChunkData.content (Option.some_inj.mp hg2)
          simp [chunkData, hcont, hstart, hdoc, hpos, hq]
      · rw [if_neg hlt, if_neg hlt]
        simp [chunkData, hcont, hstart, hdoc, hpos]
    · simp at hg
    · simp at hg
    · -- both some
      have hp : p1.content = p2.content := by
        simp only [Option.map_some'] at hg
        exact congrArg ChunkData.content (Option.some_inj.mp hg)
      by_cases hlt : i < A.length - 1
      · rw [if_pos hlt, if_pos hlt]
        have hg2 := hget (i + 1)
        rcases hA2 : A[i + 1]? with _ | q1 <;>
          rcases hB2 : B[i + 1]? with _ | q2
        all_goals rw [hA2, hB2] at hg2
        · simp [chunkData, hcont, hstart, hdoc, hpos, hp]
        · simp at hg2
        · simp at hg2
        · have hq : q1.content = q2.content := by
            simp only [Option.map_some'] at hg2
            exact congrArg ChunkData.content (Option.some_inj.mp hg2)
          simp [chunkData, hcont, hstart, hdoc, hpos, hp, hq]
      · rw [if_neg hlt, if_neg hlt]
        simp [chunkData, hcont, hstart, hdoc, hpos, hp]
  · rw [if_neg hi0, if_neg hi0]
    by_cases hlt : i < A.length - 1
    · rw [if_pos hlt, if_pos hlt]
      have hg2 := hget (i + 1)
      rcases hA2 : A[i + 1]? with _ | q1 <;>
        rcases hB2 : B[i + 1]? with _ | q2
      all_goals rw [hA2, hB2] at hg2
      · simp [chunkData, hcont, hstart, hdoc, hpos]
      · simp at hg2
      · simp at hg2
      · have hq : q1.content = q2.content := by
          simp only [Option.map_some'] at hg2
          exact congrArg ChunkData.content (Option.some_inj.mp hg2)
        simp [chunkData, hcont, hstart, hdoc, hpos, hq]
    · rw [if_neg hlt, if_neg hlt]
      simp [chunkData, hcont, hstart, hdoc, hpos]

theorem addOverlapGo_data (A B : List Chunk) (overlapSize : Nat)
    (hAB : A.map chunkData = B.map chunkData) :
    ∀ (i : Nat) (l m : List Chunk), l.map chunkData = m.map chunkData →
    (addOverlapGo A overlapSize i l).map chunkData =
      (addOverlapGo B overlapSize i m).map chunkData := by
  intro i l
  induction l generalizing i with
  | nil =>
    intro m hm
    have hm2 : m = [] := by
      rcases m with _ | ⟨d, m⟩
      · rfl
      · simp at hm
    subst hm2
    rfl
  | cons c l ih =>
    intro m hm
    rcases m with _ | ⟨d, m⟩
    · simp at hm
    simp only [List.map_cons, List.cons.injEq] at hm
    obtain ⟨hcd, hlm⟩ := hm
    rw [addOverlapGo, addOverlapGo]
    simp only [List.map_cons]
    congr 1
    · exact overlapChunk_data A B overlapSize i c d hAB hcd
    · exact ih (i + 1) m hlm

/-- C10: determinism — two invocations of `chunk()` on identical input
text, documentId and options agree on length and, pointwise, on content,
position, documentId, startChar, endChar and tokenCount; only the opaque
freshly-generated `id` (the generator argument) may differ. -/
theorem chunk_deterministic (content documentId : List Char)
    (options : ChunkingOptions) (g1 g2 : Nat → List Char) :
    (chunk content documentId options g1).map chunkData =
      (chunk content documentId options g2).map chunkData := by
  rw [chunk, chunk]
  by_cases h : jsTrim content = []
  · rw [if_pos h, if_pos h]
  · rw [if_neg h, if_neg h]
    dsimp only
    have hcore := chunkCore_data content documentId options g1 g2
    have hlen := chunkCore_length_data content documentId options g1 g2
    by_cases hov : 0 < options.overlapSize ∧
        1 < (chunkCore content documentId options g1).length
    · rw [if_pos hov, if_pos (by rw [← hlen]; exact hov)]
      rw [addOverlap, addOverlap]
      exact addOverlapGo_data _ _ options.overlapSize hcore 0 _ _ hcore
    · rw [if_neg hov, if_neg (by rw [← hlen]; exact hov)]
      exact hcore

end LocalRag
